import Mathlib

/-!
# goydachatik_cli: end-to-end encrypted chat over a content-blind relay

A shallow embedding of `client/main.go` (key exchange, AES-GCM framing, the
receive loop and the send loop) and of `server/main.go` (the connection
registry and the room-scoped broadcast), followed by the properties proved
about them.

Conventions.

* A Go `string` and a Go `[]byte` are both finite byte sequences; both are
  `List Byte` here, so the conversions `[]byte(s)` and `string(b)` are the
  identity.  A `nil` slice that the program only measures or ranges over is the
  empty list; `sharedKey`, which the program compares with `nil`, is an
  `Option`.
* The Go standard library (`crypto/elliptic`, `crypto/sha256`, `crypto/aes`,
  `crypto/cipher`) is not part of the repository.  Its functions are the fields
  of `Primitives`; what a proof needs to know about them is stated as an
  explicit law (`SealOpens`, `SealLength`, `CurveLaws`) and appears as a
  hypothesis of the theorem that uses it.
* The two goroutines of the client (`main` and `readLoop`) are interleaved at
  the granularity of one loop iteration: an `Event` is one received envelope or
  one typed line.
-/

namespace GoydaChat

/-! ## Byte strings -/

/-- One octet. -/
abbrev Byte := Fin 256

/-- A Go `string` (or `[]byte`): a finite sequence of octets. -/
abbrev GoString := List Byte

/-- UTF-8 encoding of one code point, as the Go compiler stores string literals. -/
def utf8EncodeRune (c : Char) : List Byte :=
  let n := c.toNat
  if n < 0x80 then [Fin.ofNat n]
  else if n < 0x800 then [Fin.ofNat (0xC0 + n / 64), Fin.ofNat (0x80 + n % 64)]
  else if n < 0x10000 then
    [Fin.ofNat (0xE0 + n / 4096), Fin.ofNat (0x80 + n / 64 % 64), Fin.ofNat (0x80 + n % 64)]
  else
    [Fin.ofNat (0xF0 + n / 262144), Fin.ofNat (0x80 + n / 4096 % 64),
     Fin.ofNat (0x80 + n / 64 % 64), Fin.ofNat (0x80 + n % 64)]

/-- A string literal of the Go source, as bytes. -/
def lit (s : String) : GoString := s.data.flatMap utf8EncodeRune

/-- Go `strings.Contains(s, substr)`: `substr` occurs in `s` as a contiguous run
of bytes (always true for the empty `substr`). -/
def stringsContains (s substr : GoString) : Bool := decide (substr <:+: s)

/-! ## ANSI constants (`client/main.go`, lines 23-30) -/

def Reset : GoString := lit "\x1b[0m"
def Red : GoString := lit "\x1b[31m"
def Green : GoString := lit "\x1b[32m"
def Yellow : GoString := lit "\x1b[33m"
def Cyan : GoString := lit "\x1b[36m"
def Gray : GoString := lit "\x1b[90m"

/-! ## The wire message (`type Message struct`, both programs) -/

/-- The envelope.  `Typ` is the Go field `Type`. -/
structure Message where
  Typ : GoString
  Room : GoString
  Sender : GoString
  Content : List Byte
  PublicKey : List Byte
deriving DecidableEq, Repr

/-! ## Standard-library primitives -/

/-- The array type `[32]byte` returned by `sha256.Sum256`. -/
abbrev Digest := { d : List Byte // d.length = 32 }

/-- Nonce length of `cipher.NewGCM` (`gcmStandardNonceSize`). -/
def gcmNonceSize : Nat := 12

/-- Tag length of `cipher.NewGCM` (`gcmTagSize`), the `Overhead()` of the AEAD. -/
def gcmTagSize : Nat := 16

/-- The library functions the client calls, as parameters of the embedding.

* `generateKey entropy` is `elliptic.GenerateKey(elliptic.P256(), rand.Reader)`
  reading from the entropy source; `none` is its error result.
* `scalarMult x y k` is `elliptic.P256().ScalarMult(x, y, k)`.
* `marshal`, `unmarshal` are `elliptic.Marshal` and `elliptic.Unmarshal` on
  P-256; `none` is the `nil, nil` result of a failed decoding.
* `sum256` is `sha256.Sum256`.
* `gcmSeal key nonce plaintext ad` is what `Seal` appends to its `dst`
  argument, and `gcmOpen key nonce ciphertext ad` is `Open`, for the AEAD
  `cipher.NewGCM` builds on the AES block cipher keyed with `key`; `none` is
  the authentication error. -/
structure Primitives where
  generateKey : List Byte → Option (List Byte × Int × Int)
  scalarMult : Int → Int → List Byte → Int × Int
  marshal : Int → Int → List Byte
  unmarshal : List Byte → Option (Int × Int)
  sum256 : List Byte → Digest
  gcmSeal : List Byte → List Byte → List Byte → List Byte → List Byte
  gcmOpen : List Byte → List Byte → List Byte → List Byte → Option (List Byte)

/-- Big-endian digits of `n` in base 256, most significant first, pushed in
front of `acc`; `fuel` bounds the number of digits. -/
def bigBytesAux : Nat → Nat → List Byte → List Byte
  | 0, _, acc => acc
  | fuel + 1, n, acc =>
    if n = 0 then acc else bigBytesAux fuel (n / 256) (Fin.ofNat (n % 256) :: acc)

/-- Go `(*big.Int).Bytes()`: the big-endian absolute value without leading zero
bytes (empty for zero). -/
def bigIntBytes (x : Int) : List Byte := bigBytesAux x.natAbs x.natAbs []

/-- The value of a big-endian byte string (`(*big.Int).SetBytes`). -/
def bytesToNat (b : List Byte) : Nat := b.foldl (fun acc d => acc * 256 + d.val) 0

/-- The errors `DecryptAES` can return. -/
inductive CryptoError where
  | keySize (n : Nat)
  | badCipher
  | authFailed
deriving DecidableEq, Repr

/-- The key lengths `aes.NewCipher` accepts. -/
def validAesKeyLen (n : Nat) : Bool := n == 16 || n == 24 || n == 32

/-- An AES block cipher value, as returned by a successful `aes.NewCipher`. -/
structure AesBlock where
  key : List Byte
deriving DecidableEq, Repr

/-- Go `aes.NewCipher(key)`: a `KeySizeError` (and a `nil` block) unless the key
has 16, 24 or 32 bytes. -/
def aesNewCipher (key : List Byte) : Except CryptoError AesBlock :=
  if validAesKeyLen key.length then Except.ok ⟨key⟩
  else Except.error (CryptoError.keySize key.length)

/-- Go `io.ReadFull(rand.Reader, buf)`: the bytes the source delivers overwrite
the front of `buf`; bytes it fails to deliver leave `buf` as it was. -/
def ioReadFull (src buf : List Byte) : List Byte :=
  src.take buf.length ++ buf.drop (src.take buf.length).length

/-- Go `make([]byte, n)`. -/
def makeBytes (n : Nat) : List Byte := List.replicate n 0

/-- A Go computation that either returns or panics. -/
inductive Outcome (α : Type) where
  | ok (a : α)
  | panic
deriving DecidableEq, Repr

/-! ## Cryptography of the client (`client/main.go`, lines 214-247) -/

/-- `GenerateKeys`: `none` is `log.Fatal(err)`. -/
def GenerateKeys (L : Primitives) (entropy : List Byte) : Option (List Byte × Int × Int) :=
  match L.generateKey entropy with
  | none => none
  | some (priv, x, y) => some (priv, x, y)

/-- `DeriveSharedSecret`: SHA-256 of the bytes of the x-coordinate of
`myPriv * (theirX, theirY)`. -/
def DeriveSharedSecret (L : Primitives) (myPriv : List Byte) (theirX theirY : Int) : List Byte :=
  let x := (L.scalarMult theirX theirY myPriv).1
  let hashed := L.sum256 (bigIntBytes x)
  hashed.val

/-- `EncryptAES`.  `rnd` is what `rand.Reader` delivers to `io.ReadFull`, whose
error the function ignores.  The error of `aes.NewCipher` is discarded as well,
so an invalid key reaches `cipher.NewGCM` as a `nil` block, which panics. -/
def EncryptAES (L : Primitives) (rnd : List Byte) (key : List Byte) (plaintext : GoString) :
    Outcome (List Byte) :=
  match aesNewCipher key with
  | Except.error _ => Outcome.panic
  | Except.ok block =>
    let nonce := ioReadFull rnd (makeBytes gcmNonceSize)
    Outcome.ok (nonce ++ L.gcmSeal block.key nonce plaintext [])

/-- `DecryptAES`.  `cipher.NewGCM` cannot fail on an AES block (its block size
is 16), so the second `err != nil` test never fires. -/
def DecryptAES (L : Primitives) (key : List Byte) (ciphertext : List Byte) :
    Except CryptoError GoString :=
  match aesNewCipher key with
  | Except.error err => Except.error err
  | Except.ok block =>
    let nonceSize := gcmNonceSize
    if ciphertext.length < nonceSize then Except.error CryptoError.badCipher
    else
      let nonce := ciphertext.take nonceSize
      let actualCiphertext := ciphertext.drop nonceSize
      match L.gcmOpen block.key nonce actualCiphertext [] with
      | none => Except.error CryptoError.authFailed
      | some plaintext => Except.ok plaintext

/-! ## The client session (`client/main.go`, lines 42-210) -/

/-- The global variables of the client.  `conn` is the transport: what is
written to it is recorded in `Step.sent`. -/
structure Client where
  privKey : List Byte
  pubKeyX : Int
  pubKeyY : Int
  sharedKey : Option (List Byte)
  username : GoString
  room : GoString
deriving DecidableEq, Repr

/-- What one loop iteration does: the client state it leaves (`none` when the
process stops: `return`, `os.Exit` or a panic), the envelopes handed to
`conn.WriteJSON` in order, the text printed, and whether it panicked. -/
structure Step where
  next : Option Client
  sent : List Message := []
  console : List GoString := []
  panicked : Bool := false
deriving DecidableEq, Repr

/-- The envelope `announceJoin` writes. -/
def announceJoin (c : Client) : Message :=
  { Typ := lit "system"
    Room := c.room
    Sender := c.username
    Content := lit ">>> " ++ c.username ++ lit " joined the secure channel"
    PublicKey := [] }

/-- The envelope `sendPublicKey` writes. -/
def sendPublicKey (L : Primitives) (c : Client) : Message :=
  let pubKeyBytes := L.marshal c.pubKeyX c.pubKeyY
  { Typ := lit "pubkey"
    Room := c.room
    Sender := c.username
    Content := []
    PublicKey := pubKeyBytes }

/-- One iteration of `readLoop` after `conn.ReadJSON` succeeded with `msg`. -/
def readLoop (L : Primitives) (c : Client) (msg : Message) : Step :=
  if msg.Sender = c.username then { next := some c }
  else if msg.Typ = lit "pubkey" then
    let p1 := Yellow ++ lit "🔑 Received Public Key from " ++ msg.Sender ++
      lit ". Deriving secrets...\n" ++ Reset
    match L.unmarshal msg.PublicKey with
    | none => { next := some c, console := [p1] }
    | some (x, y) =>
      { next := some { c with sharedKey := some (DeriveSharedSecret L c.privKey x y) }
        console := [p1, Green ++ lit "🔒 E2E ENCRYPTION ACTIVE. Key exchange successful." ++
          Reset ++ lit "\n"] }
  else if msg.Typ = lit "msg" then
    match c.sharedKey with
    | none =>
      { next := some c
        console := [Red ++ lit "🔒 Encrypted message received, but no key!" ++ Reset ++ lit "\n"] }
    | some key =>
      match DecryptAES L key msg.Content with
      | Except.error _ =>
        { next := some c
          console := [Red ++ lit "Error decrypting message!" ++ Reset ++ lit "\n"] }
      | Except.ok decryptedText =>
        { next := some c
          console := [Cyan ++ lit "<" ++ msg.Sender ++ lit ">" ++ Reset ++ lit " " ++
            decryptedText ++ lit "\n"] }
  else if msg.Typ = lit "system" then
    let sysText : GoString := msg.Content
    let p1 :=
      if stringsContains sysText (lit "disconnected") then Red ++ sysText ++ Reset ++ lit "\n"
      else Gray ++ sysText ++ Reset ++ lit "\n"
    if stringsContains sysText (lit "joined") then
      if !stringsContains sysText c.username then
        { next := some c
          sent := [sendPublicKey L c]
          console := [p1, Yellow ++ lit "🔄 New user detected. Sending Public Key..." ++
            Reset ++ lit "\n"] }
      else { next := some c, console := [p1] }
    else { next := some c, console := [p1] }
  else { next := some c }

/-- One iteration of the send loop of `main` (lines 107-133) for the line
`text`; `rnd` feeds the nonce and `writeOk` says whether `conn.WriteJSON`
succeeds. -/
def sendLoop (L : Primitives) (c : Client) (text : GoString) (rnd : List Byte)
    (writeOk : Bool) : Step :=
  if text = [] then { next := some c }
  else
    match c.sharedKey with
    | none =>
      { next := some c
        console := [Red ++ lit "⚠️  WAIT! No secure connection yet. Need a partner in the room." ++
          Reset ++ lit "\n"] }
    | some sharedKey =>
      match EncryptAES L rnd sharedKey text with
      | Outcome.panic => { next := none, panicked := true }
      | Outcome.ok encryptedBytes =>
        let msg : Message :=
          { Typ := lit "msg"
            Room := c.room
            Sender := c.username
            Content := encryptedBytes
            PublicKey := [] }
        if writeOk then
          { next := some c
            sent := [msg]
            console := [lit "\x1b[1A\x1b[K",
              Green ++ lit "<" ++ lit "YOU" ++ lit ">" ++ Reset ++ lit " " ++ text ++ lit "\n"] }
        else
          { next := none
            sent := [msg]
            console := [Red ++ lit "Failed to send message." ++ Reset ++ lit "\n"] }

/-- What can happen to a running client. -/
inductive Event where
  | recv (msg : Message)
  | recvError
  | line (text : GoString) (rnd : List Byte) (writeOk : Bool)
deriving DecidableEq, Repr

/-- One event of the running client. -/
def clientStep (L : Primitives) (c : Client) : Event → Step
  | Event.recv msg => readLoop L c msg
  | Event.recvError =>
    { next := none, console := [Red ++ lit "\nDisconnected from server." ++ Reset ++ lit "\n"] }
  | Event.line text rnd writeOk => sendLoop L c text rnd writeOk

/-- The state a session starts in (lines 57-68): fresh keys, the nickname and
the room typed by the user, and no shared secret. -/
def startClient (keys : List Byte × Int × Int) (username room : GoString) : Client :=
  { privKey := keys.1
    pubKeyX := keys.2.1
    pubKeyY := keys.2.2
    sharedKey := none
    username := username
    room := room }

/-- Session start of `main`: generate the keys, then, once the connection is
dialled, the handshake (`announceJoin`, `sendPublicKey`).  `none` is the fatal
entropy failure. -/
def startSession (L : Primitives) (entropy : List Byte) (username room : GoString) :
    Option (Client × List Message) :=
  match GenerateKeys L entropy with
  | none => none
  | some keys =>
    let c := startClient keys username room
    some (c, [announceJoin c, sendPublicKey L c])

/-- The client state after a sequence of events; `none` when the process
stopped before the sequence was consumed. -/
def runClient (L : Primitives) : Client → List Event → Option Client
  | c, [] => some c
  | c, e :: es =>
    match (clientStep L c e).next with
    | none => none
    | some c' => runClient L c' es

/-! ## The relay (`server/main.go`) -/

/-- A websocket connection handle (`*websocket.Conn`), identified by a number. -/
abbrev Conn := Nat

/-- The registry `clients`: a Go map from connection to room, as its list of
entries with pairwise distinct keys.  The order of the list is the order in
which `range` visits the map, which Go leaves unspecified: the statements about
the broadcast hold for every registry, hence for every order, and speak of
membership only. -/
structure Clients where
  entries : List (Conn × GoString)
  nodup : (entries.map Prod.fst).Nodup

/-- Go `delete(clients, ws)` on the entry list. -/
def deleteEntry (ws : Conn) (es : List (Conn × GoString)) : List (Conn × GoString) :=
  es.filter (fun e => e.1 ≠ ws)

/-- Go `clients[ws] = room` on the entry list. -/
def setEntry (ws : Conn) (room : GoString) (es : List (Conn × GoString)) :
    List (Conn × GoString) :=
  (ws, room) :: deleteEntry ws es

/-- Go `delete(clients, ws)`. -/
def Clients.delete (m : Clients) (ws : Conn) : Clients :=
  ⟨deleteEntry ws m.entries, m.nodup.sublist ((List.filter_sublist _).map Prod.fst)⟩

/-- Go `clients[ws] = room`. -/
def Clients.set (m : Clients) (ws : Conn) (room : GoString) : Clients :=
  ⟨setEntry ws room m.entries,
    List.nodup_cons.mpr ⟨by simp [deleteEntry],
      m.nodup.sublist ((List.filter_sublist _).map Prod.fst)⟩⟩

/-- One call `client.WriteJSON(msg)` of the broadcast and whether it returned
without error. -/
structure Delivery where
  client : Conn
  msg : Message
  ok : Bool
deriving DecidableEq, Repr

/-- Accepting a connection (`handleConnections`, lines 47-50): it is registered
with the empty room. -/
def acceptConn (clients : Clients) (ws : Conn) : Clients := clients.set ws []

/-- One iteration of the read loop of `handleConnections` (lines 52-71).
`none` is a failed `ws.ReadJSON`: the connection is deregistered and nothing is
broadcast.  Otherwise the connection is bound to the room the envelope names,
if it names one, and the envelope is put on the `broadcast` channel. -/
def handleConnections (clients : Clients) (ws : Conn) :
    Option Message → Clients × Option Message
  | none => (clients.delete ws, none)
  | some msg =>
    let clients' := if msg.Room ≠ [] then clients.set ws msg.Room else clients
    (clients', some msg)

/-- The `range clients` loop of `handleMessages` (lines 78-87) over the entries
still to visit.  `writeOk client` says whether `client.WriteJSON(msg)` returns
without error. -/
def rangeClients (writeOk : Conn → Bool) (msg : Message) :
    List (Conn × GoString) → Clients × List Delivery → Clients × List Delivery
  | [], st => st
  | (client, room) :: rest, (clients, log) =>
    if room = msg.Room then
      if writeOk client then
        rangeClients writeOk msg rest (clients, log ++ [⟨client, msg, true⟩])
      else
        rangeClients writeOk msg rest (clients.delete client, log ++ [⟨client, msg, false⟩])
    else rangeClients writeOk msg rest (clients, log)

/-- One iteration of `handleMessages` (lines 76-88): the envelope taken from the
`broadcast` channel is written to every registered connection of its room.
The result is the registry after the loop and the writes performed.
(`client.Close()` acts on the transport only and is not recorded.) -/
def handleMessages (writeOk : Conn → Bool) (clients : Clients) (msg : Message) :
    Clients × List Delivery :=
  rangeClients writeOk msg clients.entries (clients, [])

/-! ## What the proofs assume about the standard library -/

/-- The decryption contract of `cipher.AEAD`: `Open` under the key, nonce and
associated data that `Seal` was given returns the sealed plaintext.  (Byte
strings are unbounded here; the 64 GiB message limit of GCM is not modelled.) -/
def SealOpens (L : Primitives) : Prop :=
  ∀ key nonce plaintext ad : List Byte, validAesKeyLen key.length = true →
    nonce.length = gcmNonceSize →
    L.gcmOpen key nonce (L.gcmSeal key nonce plaintext ad) ad = some plaintext

/-- The length contract of `cipher.AEAD`: `Seal` appends the plaintext length
plus `Overhead()` bytes. -/
def SealLength (L : Primitives) : Prop :=
  ∀ key nonce plaintext ad : List Byte, validAesKeyLen key.length = true →
    nonce.length = gcmNonceSize →
    (L.gcmSeal key nonce plaintext ad).length = plaintext.length + gcmTagSize

/-- The algebra of the curve.  The points of P-256 form a commutative group `G`
with base point `base`; `affine` gives the coordinates `(x, y)` the library
reports for a point and `scalar` the integer a scalar byte string stands for.

* `generateKey_pub`: the public point of a generated key is the private scalar
  times the base point, and it is not the point at infinity;
* `scalarMult_smul`: `ScalarMult` on the coordinates of a point other than
  infinity is scalar multiplication in the group. -/
structure CurveLaws (L : Primitives) (G : Type) [AddCommGroup G] (base : G)
    (affine : G → Int × Int) (scalar : List Byte → ℕ) : Prop where
  generateKey_pub : ∀ entropy priv x y, L.generateKey entropy = some (priv, x, y) →
    scalar priv • base ≠ 0 ∧ (x, y) = affine (scalar priv • base)
  scalarMult_smul : ∀ (P : G) (k : List Byte), P ≠ 0 →
    L.scalarMult (affine P).1 (affine P).2 k = affine (scalar k • P)

/-! ## A small executable instance of `Primitives`

Used to run the definitions on concrete inputs.  The group is `ZMod 13` with
base point `1`; the cipher shifts every byte by the first key byte and appends
a 16-byte checksum tag. -/

/-- Coordinates of a point of the small group. -/
def toyAffine (g : ZMod 13) : Int × Int := ((g.val : Int), 0)

/-- Sum of a byte string. -/
def toySum (b : List Byte) : Byte := b.foldl (fun acc d => acc + d) 0

/-- The 16-byte tag of the small cipher. -/
def toyTag (key nonce body ad : List Byte) : List Byte :=
  List.replicate gcmTagSize (toySum key + toySum nonce + toySum body + toySum ad)

/-- The small instance. -/
def toy : Primitives where
  generateKey := fun entropy =>
    match entropy with
    | [] => none
    | e :: _ => some ([Fin.ofNat (e.val % 12 + 1)], ((e.val % 12 + 1 : Nat) : Int), 0)
  scalarMult := fun x _ k => (((bytesToNat k * x.toNat % 13 : Nat) : Int), 0)
  marshal := fun x y => [4, Fin.ofNat x.toNat, Fin.ofNat y.toNat]
  unmarshal := fun data =>
    match data with
    | [t, a, b] => if t = 4 ∧ a.val < 13 ∧ b = 0 then some ((a.val : Int), 0) else none
    | _ => none
  sum256 := fun d => ⟨(d ++ List.replicate 32 0).take 32, by simp⟩
  gcmSeal := fun key nonce plaintext ad =>
    let body := plaintext.map (fun b => b + key.headD 0)
    body ++ toyTag key nonce body ad
  gcmOpen := fun key nonce ciphertext ad =>
    let body := ciphertext.take (ciphertext.length - gcmTagSize)
    let tag := ciphertext.drop (ciphertext.length - gcmTagSize)
    if tag = toyTag key nonce body ad then some (body.map (fun b => b - key.headD 0))
    else none

/-! ## Vocabulary of the statements -/

/-- The connections of the room of `msg` among the entries `es` whose write
fails. -/
def failedWrites (writeOk : Conn → Bool) (msg : Message) (es : List (Conn × GoString)) :
    List Conn :=
  (es.filter (fun e => e.2 = msg.Room ∧ writeOk e.1 = false)).map Prod.fst

/-- The writes the broadcast loop performs over the entries `es`, in order. -/
def roomWrites (writeOk : Conn → Bool) (msg : Message) (es : List (Conn × GoString)) :
    List Delivery :=
  (es.filter (fun e => e.2 = msg.Room)).map (fun e => ⟨e.1, msg, writeOk e.1⟩)

/-- The envelope the send loop builds around the encrypted bytes (lines 119-124). -/
def cipherMsg (c : Client) (encryptedBytes : List Byte) : Message :=
  { Typ := lit "msg", Room := c.room, Sender := c.username, Content := encryptedBytes,
    PublicKey := [] }

/-- A key offer the receive loop acts on: from another sender, of type `pubkey`,
with a key that `elliptic.Unmarshal` decodes to the point `q`. -/
def ValidOffer (L : Primitives) (c : Client) (msg : Message) (q : Int × Int) : Prop :=
  msg.Sender ≠ c.username ∧ msg.Typ = lit "pubkey" ∧ L.unmarshal msg.PublicKey = some q

/-- The shared secret, when set, has the length of a SHA-256 digest. -/
def KeyInv (c : Client) : Prop := ∀ key, c.sharedKey = some key → key.length = 32

/-! ## Concrete sessions and registries -/

/-- A registry with two connections in room `alpha`, one in `beta`, one unbound. -/
def demoClients : Clients :=
  ⟨[(1, lit "alpha"), (2, lit "beta"), (3, []), (4, lit "alpha")], by decide⟩

/-- An envelope for room `alpha`. -/
def demoMsg : Message :=
  { Typ := lit "msg", Room := lit "alpha", Sender := lit "x", Content := [1, 2, 3],
    PublicKey := [] }

/-- The session of a user named `a` in room `r1`. -/
def demoLocal : Client := startClient ([2], 2, 0) (lit "a") (lit "r1")

/-- The session of a user named `bob` in room `r1`. -/
def demoPeer : Client := startClient ([3], 3, 0) (lit "bob") (lit "r1")

/-- A key offer from `bob` whose key bytes do not decode. -/
def demoBadOffer : Message :=
  { Typ := lit "pubkey", Room := lit "r1", Sender := lit "bob", Content := [],
    PublicKey := [9, 9] }

/-- The session of `a` after it accepted the key offer of `bob`. -/
def demoKeyed : Client :=
  { demoLocal with sharedKey := some (DeriveSharedSecret toy [2] 3 0) }

/-! ## The small instance satisfies the assumed laws -/

theorem toy_sealOpens : SealOpens toy := by
  intro key nonce plaintext ad _ _
  simp [toy, toyTag, gcmTagSize, Function.comp_def]

theorem toy_sealLength : SealLength toy := by
  intro key nonce plaintext ad _ _
  simp [toy, toyTag]

theorem bytesToNat_singleton (b : Byte) : bytesToNat [b] = b.val := by
  simp [bytesToNat]

theorem toyAffine_smul (n : ℕ) (P : ZMod 13) :
    toyAffine (n • P) = (((n * (toyAffine P).1.toNat % 13 : Nat) : Int), 0) := by
  simp only [toyAffine, nsmul_eq_mul, Int.toNat_ofNat]
  rw [ZMod.val_mul, ZMod.val_natCast]
  congr 2
  exact (Nat.mul_mod _ _ _).symm ▸ by simp [Nat.mul_mod, ZMod.val_lt]

theorem toy_curveLaws : CurveLaws toy (ZMod 13) 1 toyAffine bytesToNat := by
  constructor
  · intro entropy priv x y h
    cases entropy with
    | nil => simp [toy] at h
    | cons e es =>
      simp only [toy, Option.some.injEq, Prod.mk.injEq] at h
      obtain ⟨rfl, rfl, rfl⟩ := h
      have hlt : e.val % 12 + 1 < 13 := by omega
      have h1 : bytesToNat [(Fin.ofNat (e.val % 12 + 1) : Byte)] = e.val % 12 + 1 := by
        rw [bytesToNat_singleton]
        show (e.val % 12 + 1) % 256 = _
        omega
      rw [h1]
      have hv : ((e.val % 12 + 1 : ℕ) • (1 : ZMod 13)).val = e.val % 12 + 1 := by
        rw [nsmul_eq_mul, mul_one, ZMod.val_natCast]
        exact Nat.mod_eq_of_lt hlt
      constructor
      · intro h0
        rw [h0] at hv
        simp at hv
      · simp only [toyAffine, hv]
  · intro P k _
    rw [toyAffine_smul]
    rfl

/-! ## Cipher and key agreement -/

theorem ioReadFull_length (src buf : List Byte) : (ioReadFull src buf).length = buf.length := by
  simp only [ioReadFull, List.length_append, List.length_take, List.length_drop]
  omega

theorem aesNewCipher_ok (key : List Byte) (h : validAesKeyLen key.length = true) :
    aesNewCipher key = Except.ok ⟨key⟩ := by
  simp [aesNewCipher, h]

/-- C1. Round trip of the cipher.  For a key of 16, 24 or 32 bytes, any plaintext
and whatever the random source delivers, `EncryptAES` returns the 12-byte nonce
followed by the sealed ciphertext, and `DecryptAES` under the same key splits
that blob at the nonce size and returns exactly the plaintext, without error.
Assumes the `Open`-after-`Seal` contract of the AEAD. -/
theorem decryptAES_encryptAES (L : Primitives) (hL : SealOpens L) (key : List Byte)
    (hk : key.length = 16 ∨ key.length = 24 ∨ key.length = 32) (rnd : List Byte)
    (plaintext : GoString) :
    ∃ nonce blob : List Byte,
      nonce = ioReadFull rnd (makeBytes gcmNonceSize) ∧
      nonce.length = gcmNonceSize ∧
      EncryptAES L rnd key plaintext = Outcome.ok blob ∧
      blob = nonce ++ L.gcmSeal key nonce plaintext [] ∧
      blob.take gcmNonceSize = nonce ∧
      DecryptAES L key blob = Except.ok plaintext := by
  have hv : validAesKeyLen key.length = true := by
    rcases hk with h | h | h <;> simp [validAesKeyLen, h]
  have hn : (ioReadFull rnd (makeBytes gcmNonceSize)).length = gcmNonceSize := by
    rw [ioReadFull_length]; simp [makeBytes]
  refine ⟨_, _, rfl, hn, ?_, rfl, ?_, ?_⟩
  · simp [EncryptAES, aesNewCipher_ok key hv]
  · rw [List.take_left' hn]
  · simp only [DecryptAES, aesNewCipher_ok key hv, List.length_append, hn]
    rw [if_neg (by omega), List.take_left' hn, List.drop_left' hn, hL key _ plaintext [] hv hn]

/-- The round trip of C1 on the small instance: the line `hello` under a 16-byte
key, with a random source that delivers three bytes only. -/
theorem decryptAES_encryptAES_witness :
    (List.replicate 16 (7 : Byte)).length = 16 ∧
    ∃ nonce blob : List Byte,
      nonce = ioReadFull [1, 2, 3] (makeBytes gcmNonceSize) ∧
      nonce.length = gcmNonceSize ∧
      EncryptAES toy [1, 2, 3] (List.replicate 16 7) (lit "hello") = Outcome.ok blob ∧
      blob = nonce ++ toy.gcmSeal (List.replicate 16 7) nonce (lit "hello") [] ∧
      blob.take gcmNonceSize = nonce ∧
      DecryptAES toy (List.replicate 16 7) blob = Except.ok (lit "hello") :=
  ⟨by decide,
   decryptAES_encryptAES toy toy_sealOpens (List.replicate 16 7) (Or.inl (by decide)) [1, 2, 3]
      (lit "hello")⟩

/-- C2. Symmetry of the key agreement.  For two key pairs `A` and `B` returned by
`GenerateKeys`, `DeriveSharedSecret` of the private key of `A` with the public
point of `B` equals `DeriveSharedSecret` of the private key of `B` with the
public point of `A`; the common value has 32 bytes and is the SHA-256 digest of
the x-coordinate of the point `(a * b) * base`.  Assumes that the curve is a
commutative group on which `ScalarMult` is scalar multiplication. -/
theorem deriveSharedSecret_symm (L : Primitives) (G : Type) [AddCommGroup G] (base : G)
    (affine : G → Int × Int) (scalar : List Byte → ℕ) (hL : CurveLaws L G base affine scalar)
    (entropyA entropyB : List Byte) (A B : List Byte × Int × Int)
    (hA : GenerateKeys L entropyA = some A) (hB : GenerateKeys L entropyB = some B) :
    DeriveSharedSecret L A.1 B.2.1 B.2.2 = DeriveSharedSecret L B.1 A.2.1 A.2.2 ∧
    (DeriveSharedSecret L A.1 B.2.1 B.2.2).length = 32 ∧
    DeriveSharedSecret L A.1 B.2.1 B.2.2 =
      (L.sum256 (bigIntBytes (affine ((scalar A.1 * scalar B.1) • base)).1)).val := by
  obtain ⟨a, ax, ay⟩ := A
  obtain ⟨b, bx, byy⟩ := B
  have gA : L.generateKey entropyA = some (a, ax, ay) := by
    unfold GenerateKeys at hA
    split at hA
    · simp at hA
    · next p x y heq => simp only [Option.some.injEq, Prod.mk.injEq] at hA; simpa [hA] using heq
  have gB : L.generateKey entropyB = some (b, bx, byy) := by
    unfold GenerateKeys at hB
    split at hB
    · simp at hB
    · next p x y heq => simp only [Option.some.injEq, Prod.mk.injEq] at hB; simpa [hB] using heq
  obtain ⟨hA0, hAp⟩ := hL.generateKey_pub _ _ _ _ gA
  obtain ⟨hB0, hBp⟩ := hL.generateKey_pub _ _ _ _ gB
  have eA : ax = (affine (scalar a • base)).1 ∧ ay = (affine (scalar a • base)).2 := by
    rw [← hAp]; exact ⟨rfl, rfl⟩
  have eB : bx = (affine (scalar b • base)).1 ∧ byy = (affine (scalar b • base)).2 := by
    rw [← hBp]; exact ⟨rfl, rfl⟩
  have h1 : L.scalarMult bx byy a = affine ((scalar a * scalar b) • base) := by
    rw [eB.1, eB.2, hL.scalarMult_smul _ a hB0, mul_smul]
  have h2 : L.scalarMult ax ay b = affine ((scalar a * scalar b) • base) := by
    rw [eA.1, eA.2, hL.scalarMult_smul _ b hA0, mul_comm, mul_smul]
  refine ⟨?_, ?_, ?_⟩
  · simp only [DeriveSharedSecret, h1, h2]
  · exact (L.sum256 _).property
  · simp only [DeriveSharedSecret, h1]

/-- The symmetry of C2 on the small instance, for the key pairs generated from
the entropy `[1]` and `[2]`. -/
theorem deriveSharedSecret_symm_witness :
    GenerateKeys toy [1] = some ([2], 2, 0) ∧ GenerateKeys toy [2] = some ([3], 3, 0) ∧
    DeriveSharedSecret toy [2] 3 0 = 6 :: List.replicate 31 0 ∧
    DeriveSharedSecret toy [2] 3 0 = DeriveSharedSecret toy [3] 2 0 :=
  ⟨by decide, by decide, by decide,
   (deriveSharedSecret_symm toy (ZMod 13) 1 toyAffine bytesToNat toy_curveLaws [1] [2]
      ([2], 2, 0) ([3], 3, 0) (by decide) (by decide)).1⟩

/-! ## The relay -/

theorem rangeClients_log (writeOk : Conn → Bool) (msg : Message) (es : List (Conn × GoString))
    (clients : Clients) (log : List Delivery) :
    (rangeClients writeOk msg es (clients, log)).2 = log ++ roomWrites writeOk msg es := by
  induction es generalizing clients log with
  | nil => simp [rangeClients, roomWrites]
  | cons e es ih =>
    obtain ⟨c, room⟩ := e
    by_cases hr : room = msg.Room
    · by_cases hw : writeOk c = true
      · simp [rangeClients, hr, hw, ih, roomWrites]
      · simp [rangeClients, hr, hw, ih, roomWrites]
    · simp [rangeClients, hr, ih, roomWrites]

theorem failedWrites_cons (writeOk : Conn → Bool) (msg : Message) (c : Conn) (room : GoString)
    (es : List (Conn × GoString)) :
    failedWrites writeOk msg ((c, room) :: es) =
      if room = msg.Room ∧ writeOk c = false then c :: failedWrites writeOk msg es
      else failedWrites writeOk msg es := by
  by_cases h : room = msg.Room ∧ writeOk c = false
  · simp [failedWrites, List.filter_cons, h]
  · simp only [failedWrites, List.filter_cons, if_neg h]
    simp [h]

theorem rangeClients_entries (writeOk : Conn → Bool) (msg : Message)
    (es : List (Conn × GoString)) (clients : Clients) (log : List Delivery) :
    (rangeClients writeOk msg es (clients, log)).1.entries =
      clients.entries.filter (fun e => e.1 ∉ failedWrites writeOk msg es) := by
  induction es generalizing clients log with
  | nil => simp [rangeClients, failedWrites]
  | cons e es ih =>
    obtain ⟨c, room⟩ := e
    rw [failedWrites_cons]
    by_cases hr : room = msg.Room
    · by_cases hw : writeOk c = true
      · simp [rangeClients, hr, hw, ih]
      · have hw' : writeOk c = false := by simpa using hw
        simp only [rangeClients, hr, hw', ih, if_true, Bool.false_eq_true, if_false,
          Clients.delete, deleteEntry, List.filter_filter, and_self]
        apply List.filter_congr
        intro x _
        by_cases hx : x.1 = c <;> simp [hx]
    · simp [rangeClients, hr, ih]

theorem mem_failedWrites (writeOk : Conn → Bool) (msg : Message) (clients : Clients)
    (ws : Conn) (room : GoString) (h : (ws, room) ∈ clients.entries) :
    ws ∈ failedWrites writeOk msg clients.entries ↔ room = msg.Room ∧ writeOk ws = false := by
  simp only [failedWrites, List.mem_map, List.mem_filter, decide_eq_true_eq]
  constructor
  · rintro ⟨⟨c, r⟩, ⟨hm, hr, hw⟩, rfl⟩
    have : r = room := by
      have hinj := List.inj_on_of_nodup_map clients.nodup hm h rfl
      exact (Prod.mk.inj hinj).2
    exact ⟨this ▸ hr, hw⟩
  · rintro ⟨hr, hw⟩
    exact ⟨(ws, room), ⟨h, hr, hw⟩, rfl⟩


theorem handleMessages_log (writeOk : Conn → Bool) (clients : Clients) (msg : Message) :
    (handleMessages writeOk clients msg).2 = roomWrites writeOk msg clients.entries := by
  simp [handleMessages, rangeClients_log]

theorem mem_roomWrites (writeOk : Conn → Bool) (msg : Message) (es : List (Conn × GoString))
    (d : Delivery) :
    d ∈ roomWrites writeOk msg es ↔
      (d.client, msg.Room) ∈ es ∧ d.msg = msg ∧ d.ok = writeOk d.client := by
  simp only [roomWrites, List.mem_map, List.mem_filter, decide_eq_true_eq]
  constructor
  · rintro ⟨⟨c, r⟩, ⟨hm, hr⟩, rfl⟩
    simp only at hr
    subst hr
    exact ⟨hm, rfl, rfl⟩
  · rintro ⟨hm, h1, h2⟩
    refine ⟨(d.client, msg.Room), ⟨hm, rfl⟩, ?_⟩
    cases d
    simp_all

theorem entries_room_unique (clients : Clients) (ws : Conn) (r1 r2 : GoString)
    (h1 : (ws, r1) ∈ clients.entries) (h2 : (ws, r2) ∈ clients.entries) : r1 = r2 :=
  (Prod.mk.inj (List.inj_on_of_nodup_map clients.nodup h1 h2 rfl)).2

theorem roomWrites_nodup (writeOk : Conn → Bool) (msg : Message) (es : List (Conn × GoString))
    (h : (es.map Prod.fst).Nodup) :
    ((roomWrites writeOk msg es).map Delivery.client).Nodup := by
  have : (roomWrites writeOk msg es).map Delivery.client =
      (es.filter (fun e => e.2 = msg.Room)).map Prod.fst := by
    simp [roomWrites, Function.comp_def]
  rw [this]
  exact (List.Nodup.sublist (List.Sublist.map _ (List.filter_sublist _)) h)

/-- C3. Room-scoped fan-out.  For every registry and every envelope whose room is
not empty, one broadcast writes the envelope, unchanged and once, to every
registered connection bound to the room of the envelope; it writes to no connection
bound to another room and to no unbound connection; and the connection the
envelope arrived on is among the recipients, since `handleConnections` has
bound it to that room before the broadcast. -/
theorem handleMessages_fanout (writeOk : Conn → Bool) (clients : Clients) (msg : Message)
    (hroom : msg.Room ≠ []) :
    (∀ ws, (ws, msg.Room) ∈ clients.entries →
      ⟨ws, msg, writeOk ws⟩ ∈ (handleMessages writeOk clients msg).2) ∧
    (∀ d ∈ (handleMessages writeOk clients msg).2,
      d.msg = msg ∧ (d.client, msg.Room) ∈ clients.entries) ∧
    ((handleMessages writeOk clients msg).2.map Delivery.client).Nodup ∧
    (∀ ws room, (ws, room) ∈ clients.entries → room ≠ msg.Room →
      ∀ d ∈ (handleMessages writeOk clients msg).2, d.client ≠ ws) ∧
    (∀ ws, (ws, []) ∈ clients.entries →
      ∀ d ∈ (handleMessages writeOk clients msg).2, d.client ≠ ws) ∧
    (∀ sender, ⟨sender, msg, writeOk sender⟩ ∈
      (handleMessages writeOk (handleConnections clients sender (some msg)).1 msg).2) := by
  have other : ∀ ws room, (ws, room) ∈ clients.entries → room ≠ msg.Room →
      ∀ d ∈ (handleMessages writeOk clients msg).2, d.client ≠ ws := by
    intro ws room hm hne d hd hc
    rw [handleMessages_log, mem_roomWrites] at hd
    rw [hc] at hd
    exact hne (entries_room_unique clients ws _ _ hm hd.1)
  refine ⟨?_, ?_, ?_, other, ?_, ?_⟩
  · intro ws hm
    rw [handleMessages_log, mem_roomWrites]
    exact ⟨hm, rfl, rfl⟩
  · intro d hd
    rw [handleMessages_log, mem_roomWrites] at hd
    exact ⟨hd.2.1, hd.1⟩
  · rw [handleMessages_log]
    exact roomWrites_nodup writeOk msg _ clients.nodup
  · intro ws hm
    exact other ws [] hm (fun h => hroom h.symm)
  · intro sender
    rw [handleMessages_log, mem_roomWrites]
    refine ⟨?_, rfl, rfl⟩
    simp [handleConnections, hroom, Clients.set, setEntry]

/-- The fan-out of C3 on a registry of four connections: the envelope for room
`alpha` is written to the connections 1 and 4 and to no other. -/
theorem handleMessages_fanout_witness :
    demoMsg.Room ≠ [] ∧
    (⟨1, demoMsg, true⟩ : Delivery) ∈ (handleMessages (fun _ => true) demoClients demoMsg).2 ∧
    (handleMessages (fun _ => true) demoClients demoMsg).2 =
      [⟨1, demoMsg, true⟩, ⟨4, demoMsg, true⟩] :=
  ⟨by decide,
   (handleMessages_fanout (fun _ => true) demoClients demoMsg (by decide)).1 1 (by decide),
   by decide⟩

/-- C4. Write failures during a broadcast.  Whatever set of connections fails to
write: every connection of the room of the envelope whose write fails is absent from
the registry afterwards; every connection of that room whose write succeeds has
the envelope delivered; every entry of another room, and every entry whose
write succeeded, is still registered; and nothing is added to the registry. -/
theorem handleMessages_write_failures (writeOk : Conn → Bool) (clients : Clients)
    (msg : Message) :
    (∀ ws, (ws, msg.Room) ∈ clients.entries → writeOk ws = false →
      ∀ room, (ws, room) ∉ (handleMessages writeOk clients msg).1.entries) ∧
    (∀ ws, (ws, msg.Room) ∈ clients.entries → writeOk ws = true →
      ⟨ws, msg, true⟩ ∈ (handleMessages writeOk clients msg).2) ∧
    (∀ ws room, (ws, room) ∈ clients.entries → room ≠ msg.Room ∨ writeOk ws = true →
      (ws, room) ∈ (handleMessages writeOk clients msg).1.entries) ∧
    (∀ e ∈ (handleMessages writeOk clients msg).1.entries, e ∈ clients.entries) := by
  have hent : (handleMessages writeOk clients msg).1.entries =
      clients.entries.filter (fun e => e.1 ∉ failedWrites writeOk msg clients.entries) := by
    simp [handleMessages, rangeClients_entries]
  refine ⟨?_, ?_, ?_, ?_⟩
  · intro ws hm hw room hin
    rw [hent, List.mem_filter] at hin
    have hf := (mem_failedWrites writeOk msg clients ws msg.Room hm).2 ⟨rfl, hw⟩
    simp [hf] at hin
  · intro ws hm hw
    rw [handleMessages_log, mem_roomWrites]
    exact ⟨hm, rfl, hw.symm⟩
  · intro ws room hm hcase
    rw [hent, List.mem_filter]
    refine ⟨hm, ?_⟩
    have hnot : ws ∉ failedWrites writeOk msg clients.entries := by
      rw [mem_failedWrites writeOk msg clients ws room hm]
      rintro ⟨h1, h2⟩
      rcases hcase with h | h
      · exact h h1
      · rw [h] at h2; cases h2
    simpa using hnot
  · intro e he
    rw [hent, List.mem_filter] at he
    exact he.1


/-! ## The receive loop -/

/-- C8. Self-echo suppression.  An envelope whose sender is the local username
is ignored whatever its type and payload: the client state, the shared secret
included, is unchanged, nothing is written to the transport and nothing is
printed. -/
theorem readLoop_self_echo (L : Primitives) (c : Client) (msg : Message)
    (hself : msg.Sender = c.username) :
    readLoop L c msg = { next := some c, sent := [], console := [], panicked := false } := by
  simp [readLoop, hself]

/-- C5. A malformed key offer is dropped.  On a `pubkey` envelope from another
sender whose key bytes `elliptic.Unmarshal` rejects, the client state (shared
secret and key pair included) is unchanged, no envelope is written, and the
process goes on. -/
theorem readLoop_invalid_pubkey (L : Primitives) (c : Client) (msg : Message)
    (hother : msg.Sender ≠ c.username) (htyp : msg.Typ = lit "pubkey")
    (hbad : L.unmarshal msg.PublicKey = none) :
    (readLoop L c msg).next = some c ∧ (readLoop L c msg).sent = [] ∧
    (readLoop L c msg).panicked = false := by
  simp [readLoop, hother, htyp, hbad]

theorem readLoop_valid_pubkey_eq (L : Primitives) (c : Client) (msg : Message) (x y : Int)
    (hother : msg.Sender ≠ c.username) (htyp : msg.Typ = lit "pubkey")
    (hgood : L.unmarshal msg.PublicKey = some (x, y)) :
    (readLoop L c msg).next =
      some { c with sharedKey := some (DeriveSharedSecret L c.privKey x y) } ∧
    (readLoop L c msg).sent = [] ∧ (readLoop L c msg).panicked = false := by
  simp [readLoop, hother, htyp, hgood]

theorem runClient_append (L : Primitives) (c : Client) (es fs : List Event) :
    runClient L c (es ++ fs) = (runClient L c es).bind (fun c' => runClient L c' fs) := by
  induction es generalizing c with
  | nil => simp [runClient]
  | cons e es ih =>
    simp only [List.cons_append, runClient]
    cases (clientStep L c e).next with
    | none => simp
    | some c' => simp [ih]

theorem runClient_offers (L : Primitives) (c : Client) (offers : List (Message × (Int × Int)))
    (h : ∀ o ∈ offers, ValidOffer L c o.1 o.2) :
    ∃ c', runClient L c (offers.map (fun o => Event.recv o.1)) = some c' ∧
      c'.privKey = c.privKey ∧ c'.username = c.username ∧ c'.pubKeyX = c.pubKeyX ∧
      c'.pubKeyY = c.pubKeyY ∧ c'.room = c.room := by
  induction offers generalizing c with
  | nil => exact ⟨c, rfl, rfl, rfl, rfl, rfl, rfl⟩
  | cons o os ih =>
    obtain ⟨h1, h2, h3⟩ := h o (List.mem_cons_self _ _)
    have hstep := (readLoop_valid_pubkey_eq L c o.1 o.2.1 o.2.2 h1 h2 h3).1
    have hrest : ∀ o' ∈ os, ValidOffer L
        { c with sharedKey := some (DeriveSharedSecret L c.privKey o.2.1 o.2.2) } o'.1 o'.2 :=
      fun o' ho' => h o' (List.mem_cons_of_mem _ ho')
    obtain ⟨c', hr, hp⟩ := ih _ hrest
    refine ⟨c', ?_, hp⟩
    simp only [List.map_cons, runClient, clientStep, hstep]
    exact hr

/-- C9. The last key offer wins.  On a `pubkey` envelope from another sender
whose key decodes to the point `(x, y)`, the shared secret becomes
`DeriveSharedSecret privKey x y` and nothing else changes; the resulting state
does not depend on the secret held before; and after any sequence of valid key
offers followed by this one, the secret is the one derived from this one. -/
theorem readLoop_valid_pubkey (L : Primitives) (c : Client) (msg : Message) (x y : Int)
    (hoffer : ValidOffer L c msg (x, y)) :
    ((readLoop L c msg).next =
      some { c with sharedKey := some (DeriveSharedSecret L c.privKey x y) }) ∧
    (∀ k : Option (List Byte), (readLoop L { c with sharedKey := k } msg).next =
      (readLoop L c msg).next) ∧
    (∀ earlier : List (Message × (Int × Int)), (∀ o ∈ earlier, ValidOffer L c o.1 o.2) →
      runClient L c (earlier.map (fun o => Event.recv o.1) ++ [Event.recv msg]) =
        some { c with sharedKey := some (DeriveSharedSecret L c.privKey x y) }) := by
  obtain ⟨h1, h2, h3⟩ := hoffer
  refine ⟨(readLoop_valid_pubkey_eq L c msg x y h1 h2 h3).1, ?_, ?_⟩
  · intro k
    rw [(readLoop_valid_pubkey_eq L c msg x y h1 h2 h3).1,
      (readLoop_valid_pubkey_eq L { c with sharedKey := k } msg x y h1 h2 h3).1]
  · intro earlier hall
    obtain ⟨c', hr, hp, hu, hx, hy, hroom⟩ := runClient_offers L c earlier hall
    rw [runClient_append, hr]
    have hstep := (readLoop_valid_pubkey_eq L c' msg x y (by rw [hu]; exact h1) h2 h3).1
    simp only [Option.bind_some, runClient, clientStep, hstep, hp]
    cases c'
    cases c
    simp_all

/-! ## The send loop -/

theorem encryptAES_ok_iff (L : Primitives) (rnd key : List Byte) (text : GoString)
    (blob : List Byte) (h : EncryptAES L rnd key text = Outcome.ok blob) :
    validAesKeyLen key.length = true ∧
    blob = ioReadFull rnd (makeBytes gcmNonceSize) ++
      L.gcmSeal key (ioReadFull rnd (makeBytes gcmNonceSize)) text [] := by
  unfold EncryptAES aesNewCipher at h
  by_cases hv : validAesKeyLen key.length = true
  · simp [hv] at h
    exact ⟨hv, h.symm⟩
  · simp [hv] at h

theorem sendLoop_sent (L : Primitives) (c : Client) (text : GoString) (rnd : List Byte)
    (writeOk : Bool) (m : Message) (hm : m ∈ (sendLoop L c text rnd writeOk).sent) :
    ∃ key blob, c.sharedKey = some key ∧ EncryptAES L rnd key text = Outcome.ok blob ∧
      m = cipherMsg c blob := by
  unfold sendLoop at hm
  by_cases ht : text = []
  · simp [ht] at hm
  · rw [if_neg ht] at hm
    cases hk : c.sharedKey with
    | none => simp [hk] at hm
    | some key =>
      simp only [hk] at hm
      cases he : EncryptAES L rnd key text with
      | panic => simp [he] at hm
      | ok blob =>
        simp only [he] at hm
        refine ⟨key, blob, rfl, he, ?_⟩
        cases writeOk <;> simpa [cipherMsg] using hm

theorem sendLoop_next (L : Primitives) (c : Client) (text : GoString) (rnd : List Byte)
    (writeOk : Bool) (c' : Client) (h : (sendLoop L c text rnd writeOk).next = some c') :
    c' = c := by
  unfold sendLoop at h
  by_cases ht : text = []
  · simp [ht] at h; exact h.symm
  · rw [if_neg ht] at h
    cases hk : c.sharedKey with
    | none => simp [hk] at h; exact h.symm
    | some key =>
      simp only [hk] at h
      cases he : EncryptAES L rnd key text with
      | panic => simp [he] at h
      | ok blob =>
        simp only [he] at h
        cases writeOk <;> simp at h
        exact h.symm

theorem readLoop_sent (L : Primitives) (c : Client) (msg m : Message)
    (hm : m ∈ (readLoop L c msg).sent) : m = sendPublicKey L c := by
  unfold readLoop at hm
  split_ifs at hm <;> try simp at hm
  · split at hm <;> simp at hm
  · split at hm
    · simp at hm
    · split at hm <;> simp at hm
  · by_cases h1 : stringsContains msg.Content (lit "joined") = true
    · by_cases h2 : stringsContains msg.Content c.username = true
      · simp [h1, h2] at hm
      · simpa [h1, h2] using hm
    · simp [h1] at hm

/-- C7. No plaintext leaves the client.  A non-empty line typed while no shared
secret is set writes no envelope and leaves the state unchanged; the send loop
never changes the state; every envelope it writes is built in a state whose
secret is set, and its content is the blob `EncryptAES` returns for the line,
which is 28 bytes longer than the line and so differs from it; no other step
of the client writes an envelope of type `msg`, and neither does the handshake
at session start.  Assumes the length contract of the AEAD. -/
theorem sendLoop_requires_secret (L : Primitives) (hL : SealLength L) (c : Client)
    (text : GoString) (rnd : List Byte) (writeOk : Bool) :
    (text ≠ [] → c.sharedKey = none →
      (sendLoop L c text rnd writeOk).sent = [] ∧
      (sendLoop L c text rnd writeOk).next = some c ∧
      (sendLoop L c text rnd writeOk).panicked = false) ∧
    (∀ c', (sendLoop L c text rnd writeOk).next = some c' → c' = c) ∧
    (∀ m ∈ (sendLoop L c text rnd writeOk).sent,
      ∃ key blob, c.sharedKey = some key ∧ EncryptAES L rnd key text = Outcome.ok blob ∧
        m = cipherMsg c blob ∧ m.Content = blob ∧
        blob.length = gcmNonceSize + text.length + gcmTagSize ∧ m.Content ≠ text) ∧
    (∀ (e : Event) (m : Message), m ∈ (clientStep L c e).sent → m.Typ = lit "msg" →
      ∃ key text' rnd' blob, c.sharedKey = some key ∧
        EncryptAES L rnd' key text' = Outcome.ok blob ∧ m.Content = blob) ∧
    (∀ entropy username room c0 handshake,
      startSession L entropy username room = some (c0, handshake) →
      ∀ m ∈ handshake, m.Typ ≠ lit "msg") := by
  have key_fact : ∀ (text : GoString) (rnd : List Byte) (writeOk : Bool),
      ∀ m ∈ (sendLoop L c text rnd writeOk).sent,
      ∃ key blob, c.sharedKey = some key ∧ EncryptAES L rnd key text = Outcome.ok blob ∧
        m = cipherMsg c blob ∧ m.Content = blob ∧
        blob.length = gcmNonceSize + text.length + gcmTagSize ∧ m.Content ≠ text := by
    intro text rnd writeOk m hm
    obtain ⟨key, blob, hk, he, rfl⟩ := sendLoop_sent L c text rnd writeOk m hm
    obtain ⟨hv, hb⟩ := encryptAES_ok_iff L rnd key text blob he
    have hn : (ioReadFull rnd (makeBytes gcmNonceSize)).length = gcmNonceSize := by
      rw [ioReadFull_length]; simp [makeBytes]
    have hlen : blob.length = gcmNonceSize + text.length + gcmTagSize := by
      rw [hb, List.length_append, hn, hL key _ text [] hv hn]
      omega
    refine ⟨key, blob, hk, he, rfl, rfl, hlen, ?_⟩
    intro heq
    have : blob.length = text.length := by
      simp only [cipherMsg] at heq
      rw [heq]
    rw [hlen] at this
    simp only [gcmNonceSize] at this
    omega
  refine ⟨?_, sendLoop_next L c text rnd writeOk, key_fact text rnd writeOk, ?_, ?_⟩
  · intro ht hk
    simp [sendLoop, ht, hk]
  · intro e m hm htyp
    cases e with
    | recv msg =>
      have := readLoop_sent L c msg m hm
      rw [this] at htyp
      simp only [sendPublicKey] at htyp
      exact absurd htyp (by decide)
    | recvError => simp [clientStep] at hm
    | line text' rnd' w =>
      obtain ⟨key, blob, hk, he, _, hc, _⟩ := key_fact text' rnd' w m hm
      exact ⟨key, text', rnd', blob, hk, he, hc⟩
  · intro entropy username room c0 handshake hstart m hm
    unfold startSession at hstart
    cases hg : GenerateKeys L entropy with
    | none => simp [hg] at hstart
    | some keys =>
      simp only [hg, Option.some.injEq, Prod.mk.injEq] at hstart
      rw [← hstart.2] at hm
      simp only [List.mem_cons, List.mem_singleton, List.not_mem_nil, or_false] at hm
      rcases hm with rfl | rfl
      · simp only [announceJoin]; decide
      · simp only [sendPublicKey]; decide

/-! ## Reachable states -/

theorem deriveSharedSecret_length (L : Primitives) (priv : List Byte) (x y : Int) :
    (DeriveSharedSecret L priv x y).length = 32 :=
  (L.sum256 _).property

theorem readLoop_next (L : Primitives) (c : Client) (msg : Message) (c' : Client)
    (h : (readLoop L c msg).next = some c') :
    c' = c ∨ ∃ x y, c' = { c with sharedKey := some (DeriveSharedSecret L c.privKey x y) } := by
  unfold readLoop at h
  split_ifs at h
  · left; simpa using h.symm
  · split at h
    · left; simpa using h.symm
    · next x y _ => right; exact ⟨x, y, by simpa using h.symm⟩
  · split at h
    · left; simpa using h.symm
    · split at h <;> (left; simpa using h.symm)
  · left
    by_cases h1 : stringsContains msg.Content (lit "joined") = true
    · by_cases h2 : stringsContains msg.Content c.username = true
      · simp [h1, h2] at h; exact h.symm
      · simp [h1, h2] at h; exact h.symm
    · simp [h1] at h; exact h.symm
  · left; simpa using h.symm

theorem readLoop_not_panicked (L : Primitives) (c : Client) (msg : Message) :
    (readLoop L c msg).panicked = false := by
  unfold readLoop
  split_ifs
  · rfl
  · split <;> rfl
  · split
    · rfl
    · split <;> rfl
  · by_cases h1 : stringsContains msg.Content (lit "joined") = true
    · by_cases h2 : stringsContains msg.Content c.username = true
      · simp [h1, h2]
      · simp [h1, h2]
    · simp [h1]
  · rfl

theorem clientStep_keyInv (L : Primitives) (c c' : Client) (e : Event) (hinv : KeyInv c)
    (h : (clientStep L c e).next = some c') : KeyInv c' := by
  cases e with
  | recv msg =>
    rcases readLoop_next L c msg c' h with rfl | ⟨x, y, rfl⟩
    · exact hinv
    · intro key hk
      simp only [Option.some.injEq] at hk
      rw [← hk]
      exact deriveSharedSecret_length L _ x y
  | recvError => simp [clientStep] at h
  | line text rnd w =>
    rw [sendLoop_next L c text rnd w c' h]
    exact hinv

theorem runClient_keyInv (L : Primitives) (c c' : Client) (events : List Event)
    (hinv : KeyInv c) (h : runClient L c events = some c') : KeyInv c' := by
  induction events generalizing c with
  | nil =>
    simp only [runClient, Option.some.injEq] at h
    rw [← h]; exact hinv
  | cons e es ih =>
    simp only [runClient] at h
    cases hn : (clientStep L c e).next with
    | none => simp [hn] at h
    | some c1 =>
      simp only [hn] at h
      exact ih c1 (clientStep_keyInv L c c1 e hinv hn) h

/-- C10. The shared secret is always a valid AES-256 key.  In every state the
client reaches from session start by received envelopes and typed lines, the
shared secret is unset or has exactly 32 bytes; hence `aes.NewCipher` accepts
it, `EncryptAES` returns (the discarded key-length error does not occur),
`DecryptAES` never returns the key-length error, and no step panics. -/
theorem sharedKey_valid_when_reachable (L : Primitives) (keys : List Byte × Int × Int)
    (username room : GoString) (events : List Event) (c : Client)
    (hrun : runClient L (startClient keys username room) events = some c) :
    (c.sharedKey = none ∨ ∃ key, c.sharedKey = some key ∧ key.length = 32) ∧
    (∀ key, c.sharedKey = some key →
      aesNewCipher key = Except.ok ⟨key⟩ ∧
      (∀ rnd text, ∃ blob, EncryptAES L rnd key text = Outcome.ok blob) ∧
      (∀ blob n, DecryptAES L key blob ≠ Except.error (CryptoError.keySize n))) ∧
    (∀ e, (clientStep L c e).panicked = false) := by
  have hinv : KeyInv c :=
    runClient_keyInv L _ c events (fun key hk => by simp [startClient] at hk) hrun
  have hvalid : ∀ key, c.sharedKey = some key → aesNewCipher key = Except.ok ⟨key⟩ := by
    intro key hk
    simp [aesNewCipher, validAesKeyLen, hinv key hk]
  have henc : ∀ key, c.sharedKey = some key →
      ∀ rnd text, ∃ blob, EncryptAES L rnd key text = Outcome.ok blob := by
    intro key hk rnd text
    simp [EncryptAES, hvalid key hk]
  refine ⟨?_, ?_, ?_⟩
  · cases hk : c.sharedKey with
    | none => exact Or.inl rfl
    | some key => exact Or.inr ⟨key, rfl, hinv key hk⟩
  · intro key hk
    refine ⟨hvalid key hk, henc key hk, ?_⟩
    intro blob n
    simp only [DecryptAES, hvalid key hk]
    split_ifs
    · simp
    · split <;> simp
  · intro e
    cases e with
    | recv msg => exact readLoop_not_panicked L c msg
    | recvError => rfl
    | line text rnd w =>
      by_cases ht : text = []
      · simp [clientStep, sendLoop, ht]
      · cases hk : c.sharedKey with
        | none => simp [clientStep, sendLoop, ht, hk]
        | some key =>
          obtain ⟨blob, hb⟩ := henc key hk rnd text
          cases w <;> simp [clientStep, sendLoop, ht, hk, hb]

/-! ## The reply to a join announcement -/

theorem readLoop_system_sent (L : Primitives) (c : Client) (msg : Message)
    (hother : msg.Sender ≠ c.username) (htyp : msg.Typ = lit "system") :
    (readLoop L c msg).sent =
      if stringsContains msg.Content (lit "joined") = true ∧
          stringsContains msg.Content c.username = false
      then [sendPublicKey L c] else [] := by
  have h4 : lit "system" ≠ lit "pubkey" := by decide
  have h5 : lit "system" ≠ lit "msg" := by decide
  by_cases h1 : stringsContains msg.Content (lit "joined") = true
  · by_cases h2 : stringsContains msg.Content c.username = true
    · simp [readLoop, hother, htyp, h4, h5, h1, h2]
    · simp [readLoop, hother, htyp, h4, h5, h1, h2]
  · simp [readLoop, hother, htyp, h4, h5, h1]

/-- C6, evaluated where it fails.  The local user is named `a`; `bob` joins and
the relay forwards the envelope `announceJoin` wrote for him.  The sender is
not the local user, but the announcement text contains the byte `a` (in
`channel`), so the receive loop sends no key offer. -/
theorem readLoop_join_substring_username (L : Primitives) :
    (announceJoin demoPeer).Sender ≠ demoLocal.username ∧
    (announceJoin demoPeer).Content = lit ">>> bob joined the secure channel" ∧
    stringsContains (announceJoin demoPeer).Content demoLocal.username = true ∧
    (readLoop L demoLocal (announceJoin demoPeer)).sent = [] := by
  refine ⟨by decide, by decide, by decide, ?_⟩
  rw [readLoop_system_sent L demoLocal (announceJoin demoPeer) (by decide) (by decide)]
  exact if_neg (by decide)

/-- Where the re-offer of C6 does happen: on the join announcement of another
sender whose text does not contain the local username, the receive loop writes
exactly one key offer, the envelope of `sendPublicKey`. -/
theorem readLoop_join_reoffer (L : Primitives) (c peer : Client)
    (hother : peer.username ≠ c.username)
    (hsub : ¬ c.username <:+: (announceJoin peer).Content) :
    (readLoop L c (announceJoin peer)).sent = [sendPublicKey L c] := by
  rw [readLoop_system_sent L _ _ hother rfl]
  have h2 : stringsContains (announceJoin peer).Content (lit "joined") = true := by
    simp only [stringsContains, decide_eq_true_eq, announceJoin]
    refine ⟨lit ">>> " ++ peer.username ++ lit " ", lit " the secure channel", ?_⟩
    have : lit " joined the secure channel" =
        lit " " ++ lit "joined" ++ lit " the secure channel" := by decide
    rw [this]
    simp
  have h1 : stringsContains (announceJoin peer).Content c.username = false := by
    simpa [stringsContains] using hsub
  simp only [h1, h2]
  simp

/-! ## The statements above on concrete inputs -/

/-- C4 on the registry of four connections when the write to connection 1
fails: connection 1 is deregistered, connection 4 still gets the envelope. -/
theorem handleMessages_write_failures_witness :
    (∀ room, ((1 : Conn), room) ∉
      (handleMessages (fun ws => ws != 1) demoClients demoMsg).1.entries) ∧
    (⟨4, demoMsg, true⟩ : Delivery) ∈ (handleMessages (fun ws => ws != 1) demoClients demoMsg).2 ∧
    ((2 : Conn), lit "beta") ∈ (handleMessages (fun ws => ws != 1) demoClients demoMsg).1.entries :=
  ⟨(handleMessages_write_failures (fun ws => ws != 1) demoClients demoMsg).1 1
      (by decide) (by decide),
   (handleMessages_write_failures (fun ws => ws != 1) demoClients demoMsg).2.1 4
      (by decide) (by decide),
   (handleMessages_write_failures (fun ws => ws != 1) demoClients demoMsg).2.2.1 2 (lit "beta")
      (by decide) (Or.inl (by decide))⟩

/-- The re-offer on the join announcement of `bob` when the local user is named
`zed`. -/
theorem readLoop_join_reoffer_witness :
    (readLoop toy (startClient ([2], 2, 0) (lit "zed") (lit "r1")) (announceJoin demoPeer)).sent =
      [sendPublicKey toy (startClient ([2], 2, 0) (lit "zed") (lit "r1"))] :=
  readLoop_join_reoffer toy (startClient ([2], 2, 0) (lit "zed") (lit "r1")) demoPeer
    (by decide) (by decide)

/-- C5 on a session that already holds a secret: the undecodable key offer of
`bob` leaves it as it was. -/
theorem readLoop_invalid_pubkey_witness :
    toy.unmarshal demoBadOffer.PublicKey = none ∧
    (readLoop toy demoKeyed demoBadOffer).next = some demoKeyed ∧
    (readLoop toy demoKeyed demoBadOffer).sent = [] ∧
    (readLoop toy demoKeyed demoBadOffer).panicked = false :=
  ⟨by decide, readLoop_invalid_pubkey toy demoKeyed demoBadOffer (by decide) (by decide)
    (by decide)⟩

/-- C8 on the echo of the key offer the client sent itself. -/
theorem readLoop_self_echo_witness :
    readLoop toy demoLocal (sendPublicKey toy demoLocal) =
      { next := some demoLocal, sent := [], console := [], panicked := false } :=
  readLoop_self_echo toy demoLocal (sendPublicKey toy demoLocal) (by decide)

/-- C9 on the key offer of `bob`, received by `a`. -/
theorem readLoop_valid_pubkey_witness :
    ValidOffer toy demoLocal (sendPublicKey toy demoPeer) (3, 0) ∧
    (readLoop toy demoLocal (sendPublicKey toy demoPeer)).next = some demoKeyed :=
  ⟨⟨by decide, by decide, by decide⟩,
   (readLoop_valid_pubkey toy demoLocal (sendPublicKey toy demoPeer) 3 0
      ⟨by decide, by decide, by decide⟩).1⟩

/-- C7 on the line `hi` typed before any key offer arrived. -/
theorem sendLoop_requires_secret_witness :
    (sendLoop toy demoLocal (lit "hi") [] true).sent = [] ∧
    (sendLoop toy demoLocal (lit "hi") [] true).next = some demoLocal ∧
    (sendLoop toy demoLocal (lit "hi") [] true).panicked = false :=
  (sendLoop_requires_secret toy toy_sealLength demoLocal (lit "hi") [] true).1
    (by decide) (by decide)

/-- C10 on the run in which `a` receives the key offer of `bob` and then types
a line. -/
theorem sharedKey_valid_when_reachable_witness :
    runClient toy (startClient ([2], 2, 0) (lit "a") (lit "r1"))
      [Event.recv (sendPublicKey toy demoPeer), Event.line (lit "hi") [] true] = some demoKeyed ∧
    (demoKeyed.sharedKey = none ∨
      ∃ key, demoKeyed.sharedKey = some key ∧ key.length = 32) :=
  ⟨by decide,
   (sharedKey_valid_when_reachable toy ([2], 2, 0) (lit "a") (lit "r1")
      [Event.recv (sendPublicKey toy demoPeer), Event.line (lit "hi") [] true] demoKeyed
      (by decide)).1⟩

end GoydaChat
